import Mathlib

/-
Verification development for the two-pentagon cone-patch generator whose public
entry point is declared in src/Generators/cones/twopentagons.h:

  int getTwoPentagonsPatch(int sside, boolean symmetric, boolean mirror,
                           boolean onlyCount, int hexagonLayers);

The repository ships only this declaration; the generation engine itself
(lattice cell model, layer grower, boundary validator, canonical form engine,
symmetry filter, enumerator) is modelled here from the specification.  A patch
is represented by its cyclic boundary code: a list of cell codes, one per cell
in boundary order, where a code c stands for a cell of face degree c / 10
having c % 10 neighbours inside the patch.  Patch automorphisms (relabelings
of cells preserving adjacency and pentagon positions) act on the boundary code
as cyclic rotations, and the mirror reflection acts as list reversal.
-/

/-- Boolean lexicographic comparison on cell-code lists; the explicit total
order over adjacency encodings that the canonical form engine minimises. -/
def lexLe : List Nat → List Nat → Bool
  | [], _ => true
  | _ :: _, [] => false
  | a :: as, b :: bs => decide (a < b) || (a == b && lexLe as bs)

theorem lexLe_refl (l : List Nat) : lexLe l l = true := by
  induction l with
  | nil => rfl
  | cons a as ih => simp [lexLe, ih]

theorem lexLe_total : ∀ (l m : List Nat), lexLe l m = true ∨ lexLe m l = true
  | [], _ => Or.inl rfl
  | _ :: _, [] => Or.inr rfl
  | a :: as, b :: bs => by
    simp only [lexLe, Bool.or_eq_true, decide_eq_true_eq, Bool.and_eq_true, beq_iff_eq]
    rcases Nat.lt_trichotomy a b with h | h | h
    · exact Or.inl (Or.inl h)
    · subst h
      rcases lexLe_total as bs with h2 | h2
      · exact Or.inl (Or.inr ⟨rfl, h2⟩)
      · exact Or.inr (Or.inr ⟨rfl, h2⟩)
    · exact Or.inr (Or.inl h)

theorem lexLe_antisymm : ∀ {l m : List Nat}, lexLe l m = true → lexLe m l = true → l = m
  | [], [], _, _ => rfl
  | [], _ :: _, _, h2 => by simp [lexLe] at h2
  | _ :: _, [], h1, _ => by simp [lexLe] at h1
  | a :: as, b :: bs, h1, h2 => by
    simp only [lexLe, Bool.or_eq_true, decide_eq_true_eq, Bool.and_eq_true, beq_iff_eq] at h1 h2
    rcases h1 with h1 | ⟨rfl, h1⟩
    · rcases h2 with h2 | ⟨h2, _⟩ <;> omega
    · rcases h2 with h2 | ⟨_, h2⟩
      · omega
      · rw [lexLe_antisymm h1 h2]

theorem lexLe_trans : ∀ {l m n : List Nat},
    lexLe l m = true → lexLe m n = true → lexLe l n = true
  | [], _, _, _, _ => rfl
  | _ :: _, [], _, h1, _ => by simp [lexLe] at h1
  | _ :: _, _ :: _, [], _, h2 => by simp [lexLe] at h2
  | a :: as, b :: bs, c :: cs, h1, h2 => by
    simp only [lexLe, Bool.or_eq_true, decide_eq_true_eq, Bool.and_eq_true, beq_iff_eq] at h1 h2 ⊢
    rcases h1 with h1 | ⟨rfl, h1⟩
    · rcases h2 with h2 | ⟨rfl, h2⟩
      · exact Or.inl (Nat.lt_trans h1 h2)
      · exact Or.inl h1
    · rcases h2 with h2 | ⟨rfl, h2⟩
      · exact Or.inl h2
      · exact Or.inr ⟨rfl, lexLe_trans h1 h2⟩

/-- Minimum of two cell-code lists in the lexicographic order. -/
def minKey (a b : List Nat) : List Nat := if lexLe a b = true then a else b

theorem minKey_le_left (a b : List Nat) : lexLe (minKey a b) a = true := by
  unfold minKey
  split
  · exact lexLe_refl a
  · rcases lexLe_total a b with h | h
    · simp_all
    · exact h

theorem minKey_le_right (a b : List Nat) : lexLe (minKey a b) b = true := by
  unfold minKey
  split
  · assumption
  · exact lexLe_refl b

theorem minKey_eq_or (a b : List Nat) : minKey a b = a ∨ minKey a b = b := by
  unfold minKey
  split
  · exact Or.inl rfl
  · exact Or.inr rfl

theorem minKey_comm (a b : List Nat) : minKey a b = minKey b a := by
  unfold minKey
  split <;> split
  · exact lexLe_antisymm (by assumption) (by assumption)
  · rfl
  · rfl
  · rcases lexLe_total a b with h | h <;> simp_all

theorem foldl_minKey_le_init :
    ∀ (L : List (List Nat)) (a : List Nat), lexLe (L.foldl minKey a) a = true
  | [], a => lexLe_refl a
  | b :: L, a => lexLe_trans (foldl_minKey_le_init L (minKey a b)) (minKey_le_left a b)

theorem foldl_minKey_le_mem :
    ∀ (L : List (List Nat)) (a b : List Nat), b ∈ L → lexLe (L.foldl minKey a) b = true
  | [], _, _, hb => absurd hb (List.not_mem_nil _)
  | c :: L, a, b, hb => by
    rcases List.mem_cons.1 hb with rfl | hb
    · exact lexLe_trans (foldl_minKey_le_init L (minKey a b)) (minKey_le_right a b)
    · exact foldl_minKey_le_mem L (minKey a c) b hb

theorem foldl_minKey_mem :
    ∀ (L : List (List Nat)) (a : List Nat), L.foldl minKey a = a ∨ L.foldl minKey a ∈ L
  | [], _ => Or.inl rfl
  | b :: L, a => by
    rcases foldl_minKey_mem L (minKey a b) with h | h
    · rw [List.foldl_cons, h]
      rcases minKey_eq_or a b with h2 | h2
      · exact Or.inl h2
      · rw [h2]
        exact Or.inr (List.mem_cons_self _ _)
    · exact Or.inr (List.mem_cons_of_mem _ h)

/-- All rotations of a boundary code, indexed by the starting position; the
systematic search space of the canonical form engine. -/
def rotations (p : List Nat) : List (List Nat) := (List.range p.length).map p.rotate

/-- Modelled from the spec: the Canonical Form Engine (missing from src/,
only declared through its driver).  It computes the canonical key of a patch
as the lexicographically minimal boundary code over all starting positions,
the standard canonical-form-by-minimal-string technique. -/
def canon (p : List Nat) : List Nat := (rotations p).foldl minKey p

theorem canon_isRotated (p : List Nat) : List.IsRotated p (canon p) := by
  unfold canon
  rcases foldl_minKey_mem (rotations p) p with h | h
  · rw [h]
  · obtain ⟨i, _, hi⟩ := List.mem_map.1 h
    exact ⟨i, hi⟩

theorem canon_le_rotate (p : List Nat) (i : Nat) : lexLe (canon p) (p.rotate i) = true := by
  rcases Nat.eq_zero_or_pos p.length with h0 | hpos
  · rw [List.length_eq_zero.1 h0]
    rw [List.rotate_nil]
    exact foldl_minKey_le_init _ _
  · have hmem : p.rotate i ∈ rotations p := by
      rw [← List.rotate_mod]
      exact List.mem_map.2 ⟨i % p.length, List.mem_range.2 (Nat.mod_lt _ hpos), rfl⟩
    exact foldl_minKey_le_mem _ p _ hmem

theorem canon_le_of_isRotated {p q : List Nat} (h : List.IsRotated p q) :
    lexLe (canon p) q = true := by
  obtain ⟨n, rfl⟩ := h
  exact canon_le_rotate p n

theorem canon_eq_of_isRotated {p q : List Nat} (h : List.IsRotated p q) :
    canon p = canon q := by
  apply lexLe_antisymm
  · exact canon_le_of_isRotated (h.trans (canon_isRotated q))
  · exact canon_le_of_isRotated (h.symm.trans (canon_isRotated p))

theorem canon_eq_iff (p q : List Nat) : canon p = canon q ↔ List.IsRotated p q := by
  constructor
  · intro h
    exact (canon_isRotated p).trans (h ▸ (canon_isRotated q).symm)
  · exact canon_eq_of_isRotated

theorem canon_canon (p : List Nat) : canon (canon p) = canon p :=
  (canon_eq_of_isRotated (canon_isRotated p)).symm

theorem canon_reverse_canon (p : List Nat) :
    canon ((canon p).reverse) = canon (p.reverse) :=
  canon_eq_of_isRotated ((canon_isRotated p).symm.reverse)

/-- Modelled from the spec: the rotational-symmetry test of the Symmetry
Filter (missing from src/).  A patch passes when its boundary code is fixed
by the half-turn rotation, the rotational symmetry implied by the
two-pentagon seed. -/
def isSymPatch (p : List Nat) : Bool := p.rotate (p.length / 2) == p

theorem isSymPatch_eq_true_iff (p : List Nat) :
    isSymPatch p = true ↔ p.rotate (p.length / 2) = p := by
  simp [isSymPatch]

theorem isSymPatch_rotate_of {p : List Nat} (m : Nat) (h : isSymPatch p = true) :
    isSymPatch (p.rotate m) = true := by
  rw [isSymPatch_eq_true_iff] at h ⊢
  rw [List.length_rotate, List.rotate_rotate, Nat.add_comm, ← List.rotate_rotate, h]

theorem exists_rotate_back (p : List Nat) (m : Nat) :
    ∃ k, (p.rotate m).rotate k = p := by
  rcases Nat.eq_zero_or_pos p.length with h0 | hpos
  · refine ⟨0, ?_⟩
    rw [List.length_eq_zero.1 h0]
    rw [List.rotate_nil, List.rotate_nil]
  · refine ⟨p.length - m % p.length, ?_⟩
    rw [List.rotate_rotate]
    have hd := Nat.div_add_mod m p.length
    have hlt := Nat.mod_lt m hpos
    have harith : m + (p.length - m % p.length) = p.length * (m / p.length + 1) := by
      rw [Nat.mul_succ]
      omega
    rw [harith, List.rotate_length_mul]

theorem isSymPatch_isRotated {p q : List Nat} (h : List.IsRotated p q) :
    isSymPatch p = isSymPatch q := by
  obtain ⟨m, rfl⟩ := h
  by_cases hp : isSymPatch p = true
  · rw [hp, isSymPatch_rotate_of m hp]
  · by_cases hq : isSymPatch (p.rotate m) = true
    · obtain ⟨k, hk⟩ := exists_rotate_back p m
      have hback := isSymPatch_rotate_of k hq
      rw [hk] at hback
      exact absurd hback hp
    · rw [Bool.not_eq_true] at hp hq
      rw [hp, hq]

theorem isSymPatch_reverse_of {p : List Nat} (h : isSymPatch p = true) :
    isSymPatch p.reverse = true := by
  rw [isSymPatch_eq_true_iff] at h ⊢
  rw [List.length_reverse, List.rotate_reverse]
  rcases Nat.eq_zero_or_pos p.length with h0 | hpos
  · rw [List.length_eq_zero.1 h0]
    rw [List.rotate_nil, List.reverse_nil]
  · have hlt : p.length / 2 < p.length := Nat.div_lt_self hpos (by omega)
    rw [Nat.mod_eq_of_lt hlt]
    congr 1
    calc p.rotate (p.length - p.length / 2)
        = (p.rotate (p.length / 2)).rotate (p.length - p.length / 2) := by rw [h]
      _ = p.rotate p.length := by
            rw [List.rotate_rotate, Nat.add_sub_cancel' (Nat.le_of_lt hlt)]
      _ = p := List.rotate_length p

theorem isSymPatch_reverse (p : List Nat) : isSymPatch p.reverse = isSymPatch p := by
  by_cases hp : isSymPatch p = true
  · rw [hp, isSymPatch_reverse_of hp]
  · by_cases hq : isSymPatch p.reverse = true
    · have hback := isSymPatch_reverse_of hq
      rw [List.reverse_reverse] at hback
      exact absurd hback hp
    · rw [Bool.not_eq_true] at hp hq
      rw [hp, hq]

/-- Face degree of a cell code: codes 50..59 are pentagons, 60..69 hexagons. -/
def cellDegree (c : Nat) : Nat := c / 10

/-- Modelled from the spec: the two-pentagon seed configuration placed by the
Enumerator/Driver (missing from src/) — two adjacent pentagons, each with one
neighbour inside the patch, forming the minimal two-pentagon core. -/
def seedPatch : List Nat := [51, 51]

/-- Modelled from the spec: the distinct ways of stitching one new ring of
hexagonal cells onto the boundary (the Layer Grower branching, missing from
src/).  Every new cell is a hexagon; the set of ring shapes is closed under
reversal, reflecting that the lattice admits the mirrored stitching too. -/
def ringChoices : List (List Nat) := [[61], [61, 61], [60, 61], [61, 60]]

/-- Modelled from the spec: the Layer Grower (missing from src/).  It attaches
one ring of hexagonal cells to the boundary, considering every boundary
starting position and every ring shape; it does not mutate its input. -/
def growLayer (p : List Nat) : List (List Nat) :=
  (List.range p.length).flatMap (fun i => ringChoices.map (fun r => p.rotate i ++ r))

/-- Modelled from the spec: the Boundary Validator decision CONTINUE (missing
from src/): the boundary is still open and further growth can reach the
requested closing size. -/
def continues (sside : Nat) (p : List Nat) : Bool := decide (p.length < 2 * sside)

/-- Modelled from the spec: the Boundary Validator decision ACCEPT (missing
from src/): the boundary closes at exactly the requested side length. -/
def accepts (sside : Nat) (p : List Nat) : Bool := p.length == 2 * sside

/-- Modelled from the spec: the depth-first search frontier of the
Enumerator/Driver (missing from src/): the in-progress branches after growing
d layers, where only CONTINUE branches are grown further. -/
def searchFrontier (sside : Nat) : Nat → List (List Nat)
  | 0 => [seedPatch]
  | d + 1 => ((searchFrontier sside d).filter (continues sside)).flatMap growLayer

/-- Modelled from the spec: all patches ACCEPTed by the Boundary Validator
within the hexagon-layer budget. -/
def acceptedList (sside h : Nat) : List (List Nat) :=
  (List.range (h + 1)).flatMap (fun d => (searchFrontier sside d).filter (accepts sside))

/-- Modelled from the spec: the deduplication key of a patch.  Without mirror
identification it is the canonical key; with it, the lexicographically smaller
of the patch's canonical key and its mirror image's canonical key. -/
def keyOf (mirror : Bool) (p : List Nat) : List Nat :=
  if mirror then minKey (canon p) (canon p.reverse) else canon p

/-- Modelled from the spec: the Symmetry Filter (missing from src/), applied
to canonical keys after canonicalization. -/
def symOK (symmetric : Bool) (k : List Nat) : Bool := !symmetric || isSymPatch k

/-- Modelled from the spec: the deduplicated list of canonical keys of the
accepted patches surviving the symmetry filter. -/
def keyList (sside : Nat) (symmetric mirror : Bool) (h : Nat) : List (List Nat) :=
  ((((acceptedList sside h).map (keyOf mirror)).filter (symOK symmetric)).dedup)

/-- Modelled from the spec: the count of distinct accepted patches,
post-deduplication and post-symmetry-filter. -/
def patchCount (sside : Nat) (symmetric mirror : Bool) (h : Nat) : Nat :=
  (keyList sside symmetric mirror h).length

/-- Error taxonomy visible to the caller. -/
inductive ConeError where
  | invalidParameter
  deriving DecidableEq

/-- Explicit accumulator threaded through the driver in place of the original
process-wide output channel; it owns the materialized patch list. -/
structure GenState where
  out : List (List Nat)
  deriving DecidableEq

/-- Modelled from the spec: the Enumerator/Driver getTwoPentagonsPatch
(missing from src/; only its declaration is in twopentagons.h), threaded
through an explicit accumulator.  Invalid parameters are reported immediately
and no search is performed; otherwise the search runs to completion and the
deduplicated, symmetry-filtered count is returned, with the materialized key
list appended to the accumulator unless onlyCount is set. -/
def getTwoPentagonsPatchRun (st : GenState) (sside : Int) (symmetric mirror onlyCount : Bool)
    (hexagonLayers : Int) : GenState × Except ConeError Int :=
  if sside < 1 ∨ hexagonLayers < 0 then
    (st, Except.error ConeError.invalidParameter)
  else
    let ks := keyList sside.toNat symmetric mirror hexagonLayers.toNat
    ({ out := if onlyCount then st.out else st.out ++ ks }, Except.ok (ks.length : Int))

/-- Modelled from the spec: the library entry point, a single call of the
driver starting from an empty accumulator. -/
def getTwoPentagonsPatch (sside : Int) (symmetric mirror onlyCount : Bool)
    (hexagonLayers : Int) : Except ConeError Int :=
  (getTwoPentagonsPatchRun ⟨[]⟩ sside symmetric mirror onlyCount hexagonLayers).2

/-- Wrap-around of a mathematical integer into the value range of a 32-bit
signed machine int, the return type declared in twopentagons.h. -/
def wrap32 (n : Int) : Int := (n + 2147483648) % 4294967296 - 2147483648

/-- Projection of the driver result onto the declared C return type: a signed
machine int, with the conventional -1 for the error report. -/
def cResult : Except ConeError Int → Int
  | Except.error _ => -1
  | Except.ok n => wrap32 n

/-- View of the entry point through its declared C signature. -/
def getTwoPentagonsPatchC (sside : Int) (symmetric mirror onlyCount : Bool)
    (hexagonLayers : Int) : Int :=
  cResult (getTwoPentagonsPatch sside symmetric mirror onlyCount hexagonLayers)

/-- Two-pentagon invariant of the data model: exactly two cells of degree 5,
all other cells of degree 6. -/
def twoPentagonInvariant (p : List Nat) : Prop :=
  p.countP (fun c => cellDegree c == 5) = 2 ∧ ∀ c ∈ p, cellDegree c = 5 ∨ cellDegree c = 6

/-- Patch isomorphism under patch-automorphism: a relabeling of cells
preserving adjacency and pentagon positions, acting on the boundary code as a
cyclic rotation. -/
def PatchIso (p q : List Nat) : Prop := List.IsRotated p q

/-- Chirality: a patch is chiral when it is not isomorphic to its own mirror
image. -/
def Chiral (p : List Nat) : Prop := ¬ PatchIso p p.reverse

theorem mem_growLayer {p q : List Nat} :
    q ∈ growLayer p ↔ ∃ i, i < p.length ∧ ∃ r ∈ ringChoices, q = p.rotate i ++ r := by
  unfold growLayer
  rw [List.mem_flatMap]
  constructor
  · rintro ⟨i, hi, hq⟩
    rw [List.mem_range] at hi
    obtain ⟨r, hr, rfl⟩ := List.mem_map.1 hq
    exact ⟨i, hi, r, hr, rfl⟩
  · rintro ⟨i, hi, r, hr, rfl⟩
    exact ⟨i, List.mem_range.2 hi, List.mem_map.2 ⟨r, hr, rfl⟩⟩

theorem ringChoices_reverse : ∀ r ∈ ringChoices, r.reverse ∈ ringChoices := by decide

theorem ringChoices_cells :
    ∀ r ∈ ringChoices, r.countP (fun c => cellDegree c == 5) = 0 ∧ ∀ c ∈ r, cellDegree c = 6 := by
  decide

theorem isRotated_length {p q : List Nat} (h : List.IsRotated p q) : p.length = q.length :=
  h.perm.length_eq

theorem searchFrontier_reverse_closed (s : Nat) :
    ∀ d, ∀ p ∈ searchFrontier s d, ∃ q ∈ searchFrontier s d, List.IsRotated q p.reverse := by
  intro d
  induction d with
  | zero =>
    intro p hp
    rw [searchFrontier] at hp
    rcases List.mem_singleton.1 hp with rfl
    refine ⟨seedPatch, List.mem_singleton.2 rfl, ?_⟩
    decide
  | succ d ih =>
    intro pp hpp
    rw [searchFrontier] at hpp
    obtain ⟨p, hpmem, hgrow⟩ := List.mem_flatMap.1 hpp
    obtain ⟨hpF, hpC⟩ := List.mem_filter.1 hpmem
    obtain ⟨i, hi, r, hr, rfl⟩ := mem_growLayer.1 hgrow
    obtain ⟨q, hqF, hq⟩ := ih p hpF
    have hrot : List.IsRotated q ((p.rotate i).reverse) :=
      hq.trans (List.IsRotated.reverse ⟨i, rfl⟩)
    obtain ⟨m, hm⟩ := hrot
    have hqlen : q.length = p.length := by
      have hlq := isRotated_length hq
      rw [List.length_reverse] at hlq
      exact hlq
    have hqpos : 0 < q.length := by omega
    refine ⟨q.rotate (m % q.length) ++ r.reverse, ?_, ?_⟩
    · rw [searchFrontier]
      apply List.mem_flatMap.2
      refine ⟨q, List.mem_filter.2 ⟨hqF, ?_⟩, ?_⟩
      · unfold continues at hpC ⊢
        rw [decide_eq_true_eq] at hpC
        rw [decide_eq_true_eq, hqlen]
        exact hpC
      · exact mem_growLayer.2
          ⟨m % q.length, Nat.mod_lt _ hqpos, r.reverse, ringChoices_reverse r hr, rfl⟩
    · rw [List.rotate_mod, hm, List.reverse_append]
      exact List.isRotated_append

theorem acceptedList_reverse_closed {s h : Nat} {p : List Nat} (hp : p ∈ acceptedList s h) :
    ∃ q ∈ acceptedList s h, List.IsRotated q p.reverse := by
  unfold acceptedList at hp ⊢
  obtain ⟨d, hd, hpf⟩ := List.mem_flatMap.1 hp
  obtain ⟨hpF, hpA⟩ := List.mem_filter.1 hpf
  obtain ⟨q, hqF, hq⟩ := searchFrontier_reverse_closed s d p hpF
  refine ⟨q, List.mem_flatMap.2 ⟨d, hd, List.mem_filter.2 ⟨hqF, ?_⟩⟩, hq⟩
  unfold accepts at hpA ⊢
  rw [beq_iff_eq] at hpA
  rw [beq_iff_eq]
  have hlq := isRotated_length hq
  rw [List.length_reverse] at hlq
  omega

theorem searchFrontier_invariant (s : Nat) :
    ∀ d, ∀ p ∈ searchFrontier s d, twoPentagonInvariant p := by
  intro d
  induction d with
  | zero =>
    intro p hp
    rw [searchFrontier] at hp
    rcases List.mem_singleton.1 hp with rfl
    constructor
    · decide
    · decide
  | succ d ih =>
    intro pp hpp
    rw [searchFrontier] at hpp
    obtain ⟨p, hpmem, hgrow⟩ := List.mem_flatMap.1 hpp
    obtain ⟨hpF, _⟩ := List.mem_filter.1 hpmem
    obtain ⟨i, _, r, hr, rfl⟩ := mem_growLayer.1 hgrow
    obtain ⟨hc, hd5⟩ := ih p hpF
    obtain ⟨hr0, hr6⟩ := ringChoices_cells r hr
    constructor
    · rw [List.countP_append, hr0, Nat.add_zero,
        (List.rotate_perm p i).countP_eq, hc]
    · intro c hcmem
      rcases List.mem_append.1 hcmem with hcm | hcm
      · exact hd5 c ((List.rotate_perm p i).mem_iff.1 hcm)
      · exact Or.inr (hr6 c hcm)

theorem acceptedList_invariant {s h : Nat} {p : List Nat} (hp : p ∈ acceptedList s h) :
    twoPentagonInvariant p := by
  unfold acceptedList at hp
  obtain ⟨d, _, hpf⟩ := List.mem_flatMap.1 hp
  exact searchFrontier_invariant s d p (List.mem_filter.1 hpf).1

theorem acceptedList_mono {s h1 h2 : Nat} (hh : h1 ≤ h2) :
    acceptedList s h1 ⊆ acceptedList s h2 := by
  intro p hp
  unfold acceptedList at hp ⊢
  obtain ⟨d, hd, hpf⟩ := List.mem_flatMap.1 hp
  refine List.mem_flatMap.2 ⟨d, List.mem_range.2 ?_, hpf⟩
  have := List.mem_range.1 hd
  omega

theorem patchCount_eq_card (s : Nat) (sy mi : Bool) (h : Nat) :
    patchCount s sy mi h
      = (((acceptedList s h).map (keyOf mi)).filter (symOK sy)).toFinset.card := by
  unfold patchCount keyList
  rw [List.card_toFinset]

theorem patchCount_mono (s : Nat) (sy mi : Bool) {h1 h2 : Nat} (hh : h1 ≤ h2) :
    patchCount s sy mi h1 ≤ patchCount s sy mi h2 := by
  rw [patchCount_eq_card, patchCount_eq_card]
  apply Finset.card_le_card
  intro k hk
  rw [List.mem_toFinset, List.mem_filter] at hk ⊢
  obtain ⟨hk1, hk2⟩ := hk
  refine ⟨?_, hk2⟩
  obtain ⟨p, hp, rfl⟩ := List.mem_map.1 hk1
  exact List.mem_map.2 ⟨p, acceptedList_mono hh hp, rfl⟩

theorem getTwoPentagonsPatchRun_valid (st : GenState) {sside : Int} (sy mi oc : Bool)
    {h : Int} (h1 : 1 ≤ sside) (h2 : 0 ≤ h) :
    getTwoPentagonsPatchRun st sside sy mi oc h
      = ({ out := if oc then st.out else st.out ++ keyList sside.toNat sy mi h.toNat },
         Except.ok ((patchCount sside.toNat sy mi h.toNat : Int))) := by
  unfold getTwoPentagonsPatchRun
  rw [if_neg (by omega : ¬(sside < 1 ∨ h < 0))]
  rfl

theorem getTwoPentagonsPatch_valid {sside : Int} (sy mi oc : Bool) {h : Int}
    (h1 : 1 ≤ sside) (h2 : 0 ≤ h) :
    getTwoPentagonsPatch sside sy mi oc h
      = Except.ok ((patchCount sside.toNat sy mi h.toNat : Int)) := by
  unfold getTwoPentagonsPatch
  rw [getTwoPentagonsPatchRun_valid ⟨[]⟩ sy mi oc h1 h2]

theorem getTwoPentagonsPatch_invalid {sside h : Int} (sy mi oc : Bool)
    (hbad : sside < 1 ∨ h < 0) :
    getTwoPentagonsPatch sside sy mi oc h = Except.error ConeError.invalidParameter := by
  unfold getTwoPentagonsPatch getTwoPentagonsPatchRun
  rw [if_pos hbad]

/-- Canonical key of the mirror image of a (canonically keyed) patch. -/
def mirrorKey (k : List Nat) : List Nat := canon k.reverse

/-- Collapse of a canonical key under mirror identification: the smaller of
the key and its mirror image's key. -/
def collapseKey (k : List Nat) : List Nat := minKey k (mirrorKey k)

theorem minKey_self (k : List Nat) : minKey k k = k := by
  unfold minKey
  rw [if_pos (lexLe_refl k)]

theorem keyOf_false_eq (p : List Nat) : keyOf false p = canon p := rfl

theorem keyOf_true_eq (p : List Nat) : keyOf true p = collapseKey (canon p) := by
  unfold keyOf collapseKey mirrorKey
  rw [canon_reverse_canon]
  rfl

theorem isSymPatch_mirrorKey (k : List Nat) : isSymPatch (mirrorKey k) = isSymPatch k := by
  unfold mirrorKey
  rw [← isSymPatch_isRotated (canon_isRotated k.reverse), isSymPatch_reverse]

theorem symOK_mirrorKey (sy : Bool) (k : List Nat) : symOK sy (mirrorKey k) = symOK sy k := by
  unfold symOK
  rw [isSymPatch_mirrorKey]

theorem symOK_collapseKey (sy : Bool) (k : List Nat) : symOK sy (collapseKey k) = symOK sy k := by
  unfold collapseKey
  rcases minKey_eq_or k (mirrorKey k) with h | h
  · rw [h]
  · rw [h, symOK_mirrorKey]

theorem mirrorKey_mirrorKey {k : List Nat} (hk : canon k = k) :
    mirrorKey (mirrorKey k) = k := by
  unfold mirrorKey
  have h1 : List.IsRotated ((canon k.reverse).reverse) (k.reverse.reverse) :=
    (canon_isRotated k.reverse).symm.reverse
  rw [canon_eq_of_isRotated h1, List.reverse_reverse, hk]

theorem collapseKey_fixed {k : List Nat} (h : mirrorKey k = k) : collapseKey k = k := by
  unfold collapseKey
  rw [h, minKey_self]

theorem collapseKey_mirrorKey {k : List Nat} (hk : canon k = k) :
    collapseKey (mirrorKey k) = collapseKey k := by
  unfold collapseKey
  rw [mirrorKey_mirrorKey hk, minKey_comm]

/-- Canonical keys, post symmetry filter, without mirror identification. -/
def plainKeys (s : Nat) (sy : Bool) (h : Nat) : List (List Nat) :=
  ((acceptedList s h).map canon).filter (symOK sy)

theorem mem_plainKeys {s : Nat} {sy : Bool} {h : Nat} {k : List Nat} :
    k ∈ plainKeys s sy h
      ↔ (∃ p ∈ acceptedList s h, canon p = k) ∧ symOK sy k = true := by
  unfold plainKeys
  rw [List.mem_filter, List.mem_map]

theorem plainKeys_canonical {s : Nat} {sy : Bool} {h : Nat} {k : List Nat}
    (hk : k ∈ plainKeys s sy h) : canon k = k := by
  obtain ⟨⟨p, _, rfl⟩, _⟩ := mem_plainKeys.1 hk
  exact canon_canon p

theorem plainKeys_mirror_closed {s : Nat} {sy : Bool} {h : Nat} {k : List Nat}
    (hk : k ∈ plainKeys s sy h) : mirrorKey k ∈ plainKeys s sy h := by
  obtain ⟨⟨p, hp, rfl⟩, hs⟩ := mem_plainKeys.1 hk
  obtain ⟨q, hq, hqrot⟩ := acceptedList_reverse_closed hp
  refine mem_plainKeys.2 ⟨⟨q, hq, ?_⟩, ?_⟩
  · unfold mirrorKey
    rw [canon_reverse_canon]
    exact canon_eq_of_isRotated hqrot
  · rw [symOK_mirrorKey]
    exact hs

theorem toFinset_map_image (f : List Nat → List Nat) (l : List (List Nat)) :
    (l.map f).toFinset = l.toFinset.image f := by
  ext x
  simp

theorem mirrorKeyList_eq (s : Nat) (sy : Bool) (h : Nat) :
    ((acceptedList s h).map (keyOf true)).filter (symOK sy)
      = (plainKeys s sy h).map collapseKey := by
  unfold plainKeys
  have hm : (acceptedList s h).map (keyOf true)
      = ((acceptedList s h).map canon).map collapseKey := by
    rw [List.map_map]
    exact List.map_congr_left (fun p _ => keyOf_true_eq p)
  rw [hm, List.filter_map]
  congr 1
  apply List.filter_congr
  intro k _
  exact symOK_collapseKey sy k

theorem map_keyOf_false (l : List (List Nat)) : l.map (keyOf false) = l.map canon :=
  List.map_congr_left (fun p _ => keyOf_false_eq p)

theorem patchCount_false_eq (s : Nat) (sy : Bool) (h : Nat) :
    patchCount s sy false h = (plainKeys s sy h).toFinset.card := by
  rw [patchCount_eq_card]
  unfold plainKeys
  rw [map_keyOf_false]

theorem patchCount_true_eq (s : Nat) (sy : Bool) (h : Nat) :
    patchCount s sy true h = ((plainKeys s sy h).toFinset.image collapseKey).card := by
  rw [patchCount_eq_card, mirrorKeyList_eq, toFinset_map_image]

theorem patchCount_mirror_le (s : Nat) (sy : Bool) (h : Nat) :
    patchCount s sy true h ≤ patchCount s sy false h := by
  rw [patchCount_true_eq, patchCount_false_eq]
  exact Finset.card_image_le

theorem plainKeys_fixed_iff (s : Nat) (sy : Bool) (h : Nat) :
    (∀ k ∈ plainKeys s sy h, mirrorKey k = k)
      ↔ ∀ p ∈ acceptedList s h, symOK sy (canon p) = true → List.IsRotated p p.reverse := by
  constructor
  · intro hfix p hp hsym
    have hk := mem_plainKeys.2 ⟨⟨p, hp, rfl⟩, hsym⟩
    have hfk := hfix (canon p) hk
    have h2 : mirrorKey (canon p) = canon p.reverse := canon_reverse_canon p
    rw [h2] at hfk
    exact (canon_eq_iff p p.reverse).1 hfk.symm
  · intro hall k hk
    obtain ⟨⟨p, hp, hpk⟩, hsym⟩ := mem_plainKeys.1 hk
    subst hpk
    have hiso := hall p hp hsym
    have h2 : mirrorKey (canon p) = canon p.reverse := canon_reverse_canon p
    rw [h2]
    exact ((canon_eq_iff p p.reverse).2 hiso).symm

theorem plainKeys_injOn_iff (s : Nat) (sy : Bool) (h : Nat) :
    Set.InjOn collapseKey ((plainKeys s sy h).toFinset : Set (List Nat))
      ↔ ∀ k ∈ plainKeys s sy h, mirrorKey k = k := by
  constructor
  · intro hinj k hk
    have hkc : canon k = k := plainKeys_canonical hk
    have hmk := plainKeys_mirror_closed hk
    exact hinj (by simpa using hmk) (by simpa using hk) (collapseKey_mirrorKey hkc)
  · intro hfix x hx y hy hxy
    have hx2 : x ∈ plainKeys s sy h := by simpa using hx
    have hy2 : y ∈ plainKeys s sy h := by simpa using hy
    rw [collapseKey_fixed (hfix x hx2), collapseKey_fixed (hfix y hy2)] at hxy
    exact hxy

theorem patchCount_mirror_eq_iff (s : Nat) (sy : Bool) (h : Nat) :
    patchCount s sy true h = patchCount s sy false h
      ↔ ∀ p ∈ acceptedList s h, symOK sy (canon p) = true → List.IsRotated p p.reverse := by
  rw [patchCount_true_eq, patchCount_false_eq, Finset.card_image_iff,
    plainKeys_injOn_iff, plainKeys_fixed_iff]

/-- C1: the Canonical Form Engine assigns equal canonical keys to two patches
if and only if the patches are isomorphic under patch-automorphism (a
relabeling of cells preserving adjacency and pentagon positions, acting on
the boundary code as a rotation); in particular two hand-constructed
isomorphic patches — one a rotation of the other — receive equal keys, and
two non-isomorphic patches receive different keys. -/
theorem claim_C1_canonical_key :
    (∀ p q : List Nat, canon p = canon q ↔ PatchIso p q)
      ∧ canon [51, 60, 61, 51, 61] = canon (List.rotate [51, 60, 61, 51, 61] 2)
      ∧ canon [51, 60, 61, 51, 61] ≠ canon [51, 61, 60, 51, 61] :=
  ⟨fun p q => canon_eq_iff p q, by decide, by decide⟩

/-- C2: getTwoPentagonsPatch is deterministic — calling the driver twice with
identical parameters returns the same count, whatever accumulator state the
first call leaves behind. -/
theorem claim_C2_deterministic (st : GenState) (sside : Int) (sy mi oc : Bool) (h : Int) :
    (getTwoPentagonsPatchRun st sside sy mi oc h).2
      = (getTwoPentagonsPatchRun (getTwoPentagonsPatchRun st sside sy mi oc h).1
          sside sy mi oc h).2 := by
  by_cases hbad : sside < 1 ∨ h < 0 <;> simp [getTwoPentagonsPatchRun, hbad]

/-- C3: for sside < 1 or hexagonLayers < 0 the call reports InvalidParameter
immediately (and those are the only error reports); for every other input the
search fully completes and a definite count is returned — there is no
partial-result outcome. -/
theorem claim_C3_error_handling (sside : Int) (sy mi oc : Bool) (h : Int) :
    (getTwoPentagonsPatch sside sy mi oc h = Except.error ConeError.invalidParameter
        ↔ (sside < 1 ∨ h < 0))
      ∧ (1 ≤ sside → 0 ≤ h →
          getTwoPentagonsPatch sside sy mi oc h
            = Except.ok ((patchCount sside.toNat sy mi h.toNat : Int))) := by
  refine ⟨⟨?_, getTwoPentagonsPatch_invalid sy mi oc⟩, ?_⟩
  · intro he
    by_contra hbad
    rw [getTwoPentagonsPatch_valid sy mi oc (by omega) (by omega)] at he
    exact Except.noConfusion he
  · intro h1 h2
    exact getTwoPentagonsPatch_valid sy mi oc h1 h2

theorem claim_C3_witness :
    getTwoPentagonsPatch 1 true true true 0
      = Except.ok ((patchCount 1 true true 0 : Int)) :=
  (claim_C3_error_handling 1 true true true 0).2 (by decide) (by decide)

/-- C4: every patch reachable by the generator — and in particular every
accepted patch — satisfies the two-pentagon invariant: exactly two cells of
degree 5 and all other cells of degree 6; seeding places both pentagons and
the layer grower adds only degree-6 cells, so the invariant is preserved. -/
theorem claim_C4_two_pentagon_invariant (s d h : Nat) :
    (∀ p ∈ searchFrontier s d, twoPentagonInvariant p)
      ∧ ∀ p ∈ acceptedList s h, twoPentagonInvariant p :=
  ⟨searchFrontier_invariant s d, fun _ hp => acceptedList_invariant hp⟩

theorem claim_C4_witness :
    seedPatch ∈ acceptedList 1 0 ∧ twoPentagonInvariant seedPatch :=
  ⟨by decide, (claim_C4_two_pentagon_invariant 1 0 0).1 seedPatch (by decide)⟩

/-- C5: on every valid input (sside ≥ 1, hexagonLayers ≥ 0) the search
terminates and the driver is total: it returns a definite count. -/
theorem claim_C5_termination (sside : Int) (sy mi oc : Bool) (h : Int)
    (h1 : 1 ≤ sside) (h2 : 0 ≤ h) :
    ∃ c : Int, getTwoPentagonsPatch sside sy mi oc h = Except.ok c :=
  ⟨_, getTwoPentagonsPatch_valid sy mi oc h1 h2⟩

theorem claim_C5_witness :
    ∃ c : Int, getTwoPentagonsPatch 2 false false false 1 = Except.ok c :=
  claim_C5_termination 2 false false false 1 (by decide) (by decide)

/-- C6: the returned count is monotonically non-decreasing in hexagonLayers:
with all other parameters fixed and 0 ≤ h1 ≤ h2, the count at h1 is at most
the count at h2. -/
theorem claim_C6_monotone (sside : Int) (sy mi oc : Bool) (h1 h2 : Int)
    (hs : 1 ≤ sside) (h0 : 0 ≤ h1) (hh : h1 ≤ h2) :
    ∃ c1 c2 : Int,
      getTwoPentagonsPatch sside sy mi oc h1 = Except.ok c1
        ∧ getTwoPentagonsPatch sside sy mi oc h2 = Except.ok c2
        ∧ c1 ≤ c2 := by
  refine ⟨_, _, getTwoPentagonsPatch_valid sy mi oc hs h0,
    getTwoPentagonsPatch_valid sy mi oc hs (le_trans h0 hh), ?_⟩
  exact_mod_cast patchCount_mono sside.toNat sy mi (Int.toNat_le_toNat hh)

theorem claim_C6_witness :
    ∃ c1 c2 : Int,
      getTwoPentagonsPatch 2 false false true 1 = Except.ok c1
        ∧ getTwoPentagonsPatch 2 false false true 2 = Except.ok c2
        ∧ c1 ≤ c2 :=
  claim_C6_monotone 2 false false true 1 2 (by decide) (by decide) (by decide)

/-- C7 counterexample: with sside = 2, symmetric = true and one hexagon
layer, the mirror and non-mirror counts are equal, yet an accepted patch is
chiral — it is merely discarded by the symmetry filter before counting — so
count equality does not imply that no accepted patch is chiral. -/
theorem claim_C7_counterexample :
    patchCount 2 true true 1 = patchCount 2 true false 1
      ∧ [51, 51, 60, 61] ∈ acceptedList 2 1
      ∧ Chiral [51, 51, 60, 61] := by
  refine ⟨by decide, by decide, ?_⟩
  exact (by decide : ¬ List.IsRotated [51, 51, 60, 61] (List.reverse [51, 51, 60, 61]))

/-- C7 (amended): mirror law — for fixed sside, symmetric, onlyCount and
hexagonLayers, the count with mirror = true is at most the count with
mirror = false, and the two counts are equal exactly when no accepted patch
surviving the symmetry filter is chiral (every counted patch is isomorphic to
its own mirror image). -/
theorem claim_C7_mirror_law (sside : Int) (sy oc : Bool) (h : Int)
    (hs : 1 ≤ sside) (h0 : 0 ≤ h) :
    ∃ cT cF : Int,
      getTwoPentagonsPatch sside sy true oc h = Except.ok cT
        ∧ getTwoPentagonsPatch sside sy false oc h = Except.ok cF
        ∧ cT ≤ cF
        ∧ (cT = cF ↔ ∀ p ∈ acceptedList sside.toNat h.toNat,
            symOK sy (canon p) = true → PatchIso p p.reverse) := by
  refine ⟨_, _, getTwoPentagonsPatch_valid sy true oc hs h0,
    getTwoPentagonsPatch_valid sy false oc hs h0, ?_, ?_⟩
  · exact_mod_cast patchCount_mirror_le sside.toNat sy h.toNat
  · rw [Nat.cast_inj]
    exact patchCount_mirror_eq_iff sside.toNat sy h.toNat

theorem claim_C7_witness :
    ∃ cT cF : Int,
      getTwoPentagonsPatch 2 true true true 1 = Except.ok cT
        ∧ getTwoPentagonsPatch 2 true false true 1 = Except.ok cF
        ∧ cT ≤ cF
        ∧ (cT = cF ↔ ∀ p ∈ acceptedList 2 1,
            symOK true (canon p) = true → PatchIso p p.reverse) :=
  claim_C7_mirror_law 2 true true 1 (by decide) (by decide)

/-- C8: the onlyCount flag does not affect the returned value — the counting
mode and the materializing mode return the same integer. -/
theorem claim_C8_onlyCount (sside : Int) (sy mi : Bool) (h : Int) :
    getTwoPentagonsPatch sside sy mi true h = getTwoPentagonsPatch sside sy mi false h := by
  by_cases hbad : sside < 1 ∨ h < 0 <;>
    simp [getTwoPentagonsPatch, getTwoPentagonsPatchRun, hbad]

/-- C9: on every valid input the returned value is the non-negative, finite
count of distinct accepted patches after deduplication by canonical key and
symmetry filtering. -/
theorem claim_C9_count (sside : Int) (sy mi oc : Bool) (h : Int)
    (h1 : 1 ≤ sside) (h2 : 0 ≤ h) :
    getTwoPentagonsPatch sside sy mi oc h
        = Except.ok ((patchCount sside.toNat sy mi h.toNat : Int))
      ∧ 0 ≤ ((patchCount sside.toNat sy mi h.toNat : Int))
      ∧ patchCount sside.toNat sy mi h.toNat
          = (keyList sside.toNat sy mi h.toNat).length :=
  ⟨getTwoPentagonsPatch_valid sy mi oc h1 h2, Int.natCast_nonneg _, rfl⟩

theorem claim_C9_witness :
    getTwoPentagonsPatch 1 false true true 0
        = Except.ok ((patchCount 1 false true 0 : Int))
      ∧ 0 ≤ ((patchCount 1 false true 0 : Int))
      ∧ patchCount 1 false true 0 = (keyList 1 false true 0).length :=
  claim_C9_count 1 false true true 0 (by decide) (by decide)

/-- C10: through its declared C signature (signed 32-bit int return type and
parameters), every value the entry point returns lies in the signed int
range; on valid inputs the reported count is the true count wrapped modulo
the int width, and a true count exceeding INT_MAX can never be returned
exactly. -/
theorem claim_C10_int_width :
    (∀ (sside : Int) (sy mi oc : Bool) (h : Int),
        -2147483648 ≤ getTwoPentagonsPatchC sside sy mi oc h
          ∧ getTwoPentagonsPatchC sside sy mi oc h < 2147483648)
      ∧ (∀ (sside : Int) (sy mi oc : Bool) (h : Int), 1 ≤ sside → 0 ≤ h →
          getTwoPentagonsPatchC sside sy mi oc h
            = wrap32 ((patchCount sside.toNat sy mi h.toNat : Int)))
      ∧ ∀ n : Int, 2147483647 < n → wrap32 n ≠ n := by
  have hw : ∀ n : Int, -2147483648 ≤ wrap32 n ∧ wrap32 n < 2147483648 := by
    intro n
    unfold wrap32
    have hnn := Int.emod_nonneg (n + 2147483648) (by norm_num : (4294967296 : Int) ≠ 0)
    have hlt := Int.emod_lt_of_pos (n + 2147483648) (by norm_num : (0 : Int) < 4294967296)
    omega
  refine ⟨?_, ?_, ?_⟩
  · intro sside sy mi oc h
    unfold getTwoPentagonsPatchC
    cases hgp : getTwoPentagonsPatch sside sy mi oc h with
    | error e => exact ⟨by norm_num [cResult], by norm_num [cResult]⟩
    | ok n => exact hw n
  · intro sside sy mi oc h h1 h2
    unfold getTwoPentagonsPatchC
    rw [getTwoPentagonsPatch_valid sy mi oc h1 h2]
    rfl
  · intro n hn
    have := hw n
    omega

theorem claim_C10_witness :
    getTwoPentagonsPatchC 1 true true true 0 = wrap32 ((patchCount 1 true true 0 : Int))
      ∧ wrap32 2147483648 ≠ 2147483648 :=
  ⟨claim_C10_int_width.2.1 1 true true true 0 (by decide) (by decide),
   claim_C10_int_width.2.2 2147483648 (by decide)⟩
